import Mathlib

/-!
# Verification of the perf-rs PMU event-specifier parser

A shallow embedding of `src/tools/perf/perf-rs/src/pmu_events.rs`.

The Rust code is written with the `combine` parser-combinator library,
which follows the Parsec consumed/empty discipline:

* a parser either succeeds or fails, and in both cases either consumed
  input or did not;
* sequencing propagates failure, and a failure after partial progress is
  a *consumed* failure;
* `choice`/`or` tries the next alternative only on an *empty* failure;
* `attempt` converts a consumed failure into an empty failure (full
  backtracking);
* `optional(p)` yields `None` when `p` fails empty and propagates a
  consumed failure.

We embed parsers as functions from the remaining input (a list of
characters) and the current offset to an outcome.  A Rust panic
(`unwrap` on an error value) is modelled as a distinct outcome `panic`
that propagates through every combinator, since a panic unwinds through
the combinator stack.

Error values model the position / unexpected-token / expected-token
payload of `combine`'s easy errors, which is what the repository's tests
observe (`Parse error at 2 / Unexpected v / Expected end of input`).
-/

/-- The error payload of a failed parse: offset of the failure, the
unexpected character (none at end of input), the expected-item
descriptions, and any extra messages attached with `.message`. -/
structure PError where
  pos : Nat
  unexpected : Option Char
  expected : List String
  messages : List String
deriving DecidableEq, Repr

/-- Outcome of running a parser: success or failure (each recording
whether input was consumed, following `combine`'s Parsec-style
consumed/empty discipline), or a Rust panic propagating out. -/
inductive POut (α : Type) where
  | ok (consumed : Bool) (val : α) (rest : List Char) (pos : Nat)
  | err (consumed : Bool) (e : PError)
  | panic
deriving DecidableEq, Repr

/-- A parser over a character stream: remaining input and current
offset to outcome. -/
def Parser (α : Type) : Type := List Char → Nat → POut α

/-- Run a parser on a whole string from offset 0 (as
`easy_parse` does on a `&str` input in the tests). -/
def runP {α : Type} (p : Parser α) (s : String) : POut α := p s.data 0

/-- `combine`'s `satisfy(f)`: consume one character satisfying `f`. -/
def satisfyP (f : Char → Bool) : Parser Char := fun l pos =>
  match l with
  | [] => .err false ⟨pos, none, [], []⟩
  | c :: rest =>
    if f c then .ok true c rest (pos + 1) else .err false ⟨pos, some c, [], []⟩

/-- `combine`'s `token(c)`: consume exactly the character `c`. -/
def tokenP (c : Char) : Parser Char := fun l pos =>
  match l with
  | [] => .err false ⟨pos, none, [String.mk [c]], []⟩
  | c' :: rest =>
    if c' = c then .ok true c rest (pos + 1)
    else .err false ⟨pos, some c', [String.mk [c]], []⟩

/-- `.map(f)` on a parser. -/
def mapP {α β : Type} (f : α → β) (p : Parser α) : Parser β := fun l pos =>
  match p l pos with
  | .ok b a r pp => .ok b (f a) r pp
  | .err b e => .err b e
  | .panic => .panic

/-- `.map(|x| g(x).unwrap())` on a parser: the semantic action calls
`unwrap` on a fallible conversion, so a `none` from `f` is a Rust
panic. -/
def mapPanic {α β : Type} (f : α → Option β) (p : Parser α) : Parser β := fun l pos =>
  match p l pos with
  | .ok b a r pp =>
    match f a with
    | some v => .ok b v r pp
    | none => .panic
  | .err b e => .err b e
  | .panic => .panic

/-- `.message(m)` on a parser: attach an extra message to a failure. -/
def messageP {α : Type} (m : String) (p : Parser α) : Parser α := fun l pos =>
  match p l pos with
  | .err b e => .err b { e with messages := e.messages ++ [m] }
  | r => r

/-- Sequencing, i.e. `combine`'s tuple parser `(p, q)` restricted to two
components (longer tuples are nested pairs here).  Consumed-ness is the
disjunction; a failure of `q` after `p` consumed is a consumed
failure. -/
def seqP {α β : Type} (p : Parser α) (q : Parser β) : Parser (α × β) := fun l pos =>
  match p l pos with
  | .ok b₁ a r₁ p₁ =>
    (match q r₁ p₁ with
     | .ok b₂ bval r₂ p₂ => .ok (b₁ || b₂) (a, bval) r₂ p₂
     | .err b₂ e => .err (b₁ || b₂) e
     | .panic => .panic)
  | .err b e => .err b e
  | .panic => .panic

/-- `combine`'s `attempt(p)`: turn a consumed failure into an empty one
so that an outer choice can backtrack past partial progress. -/
def attemptP {α : Type} (p : Parser α) : Parser α := fun l pos =>
  match p l pos with
  | .err true e => .err false e
  | r => r

/-- `combine`'s `optional(p)`: `none` on an empty failure, propagating a
consumed failure. -/
def optionalP {α : Type} (p : Parser α) : Parser (Option α) := fun l pos =>
  match p l pos with
  | .ok b a r pp => .ok b (some a) r pp
  | .err false _ => .ok false none l pos
  | .err true e => .err true e
  | .panic => .panic

/-- Merge two empty-failure errors from alternatives, keeping the
farther position and otherwise joining the payloads. -/
def mergeErr (e₁ e₂ : PError) : PError :=
  if e₁.pos < e₂.pos then e₂
  else if e₂.pos < e₁.pos then e₁
  else ⟨e₁.pos, e₁.unexpected <|> e₂.unexpected,
        e₁.expected ++ e₂.expected, e₁.messages ++ e₂.messages⟩

/-- Ordered choice: `combine`'s `choice`/`or`.  The second alternative
is tried only when the first fails without consuming input. -/
def orElseP {α : Type} (p q : Parser α) : Parser α := fun l pos =>
  match p l pos with
  | .err false e₁ =>
    (match q l pos with
     | .err false e₂ => .err false (mergeErr e₁ e₂)
     | r => r)
  | r => r

/-- `combine`'s `eof()`: succeed (without consuming) exactly at end of
input; otherwise fail expecting "end of input". -/
def eofP : Parser Unit := fun l pos =>
  match l with
  | [] => .ok false () l pos
  | c :: _ => .err false ⟨pos, some c, ["end of input"], []⟩

/-- `combine`'s `many1(satisfy f)` collected into a `String` (greedy:
takes the maximal run of characters satisfying `f`, requiring at least
one). -/
def many1SatisfyP (f : Char → Bool) : Parser String := fun l pos =>
  match l with
  | [] => .err false ⟨pos, none, [], []⟩
  | c :: _ =>
    if f c then
      .ok true (String.mk (l.takeWhile f)) (l.dropWhile f)
        (pos + (l.takeWhile f).length)
    else .err false ⟨pos, some c, [], []⟩

/-- `combine`'s `recognize(skip_many1(satisfy f))`: the consumed input
of a maximal nonempty run of characters satisfying `f`, as a string.
Semantically identical to `many1SatisfyP f`. -/
def recognizeSkipMany1SatisfyP (f : Char → Bool) : Parser String :=
  many1SatisfyP f

/-- Iteration worker for `count_min_max`: up to `mx` more iterations of
`p`, `mn` of which are still required; `acc` holds the items parsed so
far (reversed) and `cons` whether any input has been consumed. -/
def countMinMaxAux {α : Type} (p : Parser α) :
    Nat → Nat → List α → Bool → List Char → Nat → POut (List α)
  | _, 0, acc, cons, l, pos => .ok cons acc.reverse l pos
  | mn, mx + 1, acc, cons, l, pos =>
    match p l pos with
    | .ok bi a r pp => countMinMaxAux p (mn - 1) mx (a :: acc) (cons || bi) r pp
    | .err false e =>
      if mn = 0 then .ok cons acc.reverse l pos else .err cons e
    | .err true e => .err true e
    | .panic => .panic

/-- `combine`'s `count_min_max(mn, mx, p)`: between `mn` and `mx`
occurrences of `p`, stopping after `mx` or at the first empty failure
of `p` once `mn` occurrences have been parsed. -/
def countMinMaxP {α : Type} (mn mx : Nat) (p : Parser α) : Parser (List α) :=
  fun l pos => countMinMaxAux p mn mx [] false l pos

/-! ## Data model (`pmu_events.rs`) -/

/-- The `PmuEventModifier` enum. -/
inductive PmuEventModifier where
  | UserSpaceCounting
  | KernelCounting
  | HypervisorCounting
  | NonIdleCounting
  | GuestCounting
  | HostCounting
  | PreciseLevel
  | UseMaxPreciseLevel
  | ReadSampleValue
  | Pin
  | GroupWeak
  | GroupExclusive
  | BpfAggregation
deriving DecidableEq, Repr

/-- `TryFrom<char> for PmuEventModifier`: the fallible conversion from
a character, `none` standing for the `bail!("Invalid modifier: ...")`
branch. -/
def pmuEventModifierTryFrom (c : Char) : Option PmuEventModifier :=
  if c = 'u' then some .UserSpaceCounting
  else if c = 'k' then some .KernelCounting
  else if c = 'h' then some .HypervisorCounting
  else if c = 'I' then some .NonIdleCounting
  else if c = 'G' then some .GuestCounting
  else if c = 'H' then some .HostCounting
  else if c = 'p' then some .PreciseLevel
  else if c = 'P' then some .UseMaxPreciseLevel
  else if c = 'S' then some .ReadSampleValue
  else if c = 'D' then some .Pin
  else if c = 'W' then some .GroupWeak
  else if c = 'e' then some .GroupExclusive
  else if c = 'b' then some .BpfAggregation
  else none

/-- The predicate of the `satisfy` inside `modifier()`. -/
def isModChar (c : Char) : Bool :=
  c = 'u' || c = 'k' || c = 'h' || c = 'I' || c = 'G' || c = 'H' || c = 'p'
    || c = 'P' || c = 'S' || c = 'D' || c = 'W' || c = 'e' || c = 'b'

/-- The `modifier()` parser:
`satisfy(...).map(|c| PmuEventModifier::try_from(c).unwrap()).message("Invalid modifier")`. -/
def modifierP : Parser PmuEventModifier :=
  messageP "Invalid modifier" (mapPanic pmuEventModifierTryFrom (satisfyP isModChar))

/-- The `modifiers()` parser:
`(token(':'), count_min_max(1, 16, modifier())).map(|(_, modifiers)| modifiers)`. -/
def modifiersP : Parser (List PmuEventModifier) :=
  mapP (fun x => x.2) (seqP (tokenP ':') (countMinMaxP 1 16 modifierP))

/-- The `SymbolicEvent` struct. -/
structure SymbolicEvent where
  name : String
  modifier : List PmuEventModifier
deriving DecidableEq, Repr

/-- The `TracepointEvent` struct. -/
structure TracepointEvent where
  category : String
  name : String
  modifier : List PmuEventModifier
deriving DecidableEq, Repr

/-- The `RawEvent` struct.  The `u64` value is carried as a `Nat`; the
parser only ever constructs values below `2 ^ 64` (an overflowing hex
string makes `from_str_radix` fail, which the code `unwrap`s into a
panic). -/
structure RawEvent where
  value : Nat
  modifier : List PmuEventModifier
deriving DecidableEq, Repr

/-- The `PmuEvent` enum. -/
inductive PmuEvent where
  | SymbolicEvent (e : SymbolicEvent)
  | TracepointEvent (e : TracepointEvent)
  | GroupedEvent (es : List PmuEvent)
  | RawEvent (e : RawEvent)

/-- Rust `char::is_alphanumeric`, restricted to the ASCII letters and
digits actually exercised by this grammar (the Unicode
alphabetic/numeric tables are out of scope of this embedding). -/
def isAlphanumeric (c : Char) : Bool := c.isAlpha || c.isDigit

/-- The first `satisfy` predicate of `parse_name`: name-start
characters. -/
def isNameStart (c : Char) : Bool :=
  isAlphanumeric c || c = '_' || c = '*' || c = '?' || c = '[' || c = ']'

/-- The `many1(satisfy ...)` predicate of `parse_name`:
name-continuation characters. -/
def isNameCont (c : Char) : Bool :=
  isAlphanumeric c || c = '_' || c = '*' || c = '?' || c = '[' || c = ']'
    || c = '.' || c = '!' || c = '-'

/-- The `parse_name` parser: one name-start character followed by
`many1` name-continuation characters, collected into the consumed
string. -/
def parseNameP : Parser String :=
  mapP (fun fr : Char × String => String.mk (fr.1 :: fr.2.data))
    (seqP (satisfyP isNameStart) (many1SatisfyP isNameCont))

/-- Rust `char::is_ascii_hexdigit`. -/
def isAsciiHexDigit (c : Char) : Bool :=
  c.isDigit || (decide ('a' ≤ c) && decide (c ≤ 'f'))
    || (decide ('A' ≤ c) && decide (c ≤ 'F'))

/-- The digit value of one hex character, as used by
`u64::from_str_radix(_, 16)` (`char::to_digit(16)`). -/
def hexCharVal (c : Char) : Option Nat :=
  if c.isDigit then
    some (c.toNat - '0'.toNat)
  else if 'a' ≤ c ∧ c ≤ 'f' then
    some (10 + (c.toNat - 'a'.toNat))
  else if 'A' ≤ c ∧ c ≤ 'F' then
    some (10 + (c.toNat - 'A'.toNat))
  else
    none

/-- Digit values of a hex string; `none` if any character is not a hex
digit. -/
def hexDigitVals : List Char → Option (List Nat)
  | [] => some []
  | c :: cs =>
    match hexCharVal c, hexDigitVals cs with
    | some d, some ds => some (d :: ds)
    | _, _ => none

/-- `u64::from_str_radix(s, 16)`: fails on an empty string, on a
non-hex-digit character, and on overflow past the unsigned 64-bit
range. -/
def fromStrRadix16 (s : String) : Option Nat :=
  if s.data = [] then none
  else
    match hexDigitVals s.data with
    | none => none
    | some ds =>
      let v := ds.foldl (fun a d => a * 16 + d) 0
      if v < 2 ^ 64 then some v else none

/-- The `parse_symbolic_event` parser:
`(parse_name(), optional(modifiers()), eof())` mapped into a
`SymbolicEvent`. -/
def parseSymbolicEventP : Parser PmuEvent :=
  mapP
    (fun x : (String × Option (List PmuEventModifier)) × Unit =>
      PmuEvent.SymbolicEvent ⟨x.1.1, x.1.2.getD []⟩)
    (seqP (seqP parseNameP (optionalP modifiersP)) eofP)

/-- The `parse_tracepoint_event` parser:
`(parse_name(), token(':'), parse_name(), optional(modifiers()), eof())`
mapped into a `TracepointEvent`. -/
def parseTracepointEventP : Parser PmuEvent :=
  mapP
    (fun x : (((String × Char) × String) × Option (List PmuEventModifier)) × Unit =>
      PmuEvent.TracepointEvent ⟨x.1.1.1.1, x.1.1.2, x.1.2.getD []⟩)
    (seqP (seqP (seqP (seqP parseNameP (tokenP ':')) parseNameP)
        (optionalP modifiersP)) eofP)

/-- The `parse_raw_event` parser:
`(token('r'), optional(attempt((token('0'), token('x')))), recognize(skip_many1(satisfy(is_ascii_hexdigit))), optional(modifiers()))`
mapped through `u64::from_str_radix(&value, 16).unwrap()` into a
`RawEvent` — the `unwrap` panics when the hex value overflows `u64`.
Note there is no `eof()` in this alternative. -/
def parseRawEventP : Parser PmuEvent :=
  mapPanic
    (fun x : ((Char × Option (Char × Char)) × String) × Option (List PmuEventModifier) =>
      (fromStrRadix16 x.1.2).map (fun v => PmuEvent.RawEvent ⟨v, x.2.getD []⟩))
    (seqP
      (seqP (seqP (tokenP 'r')
          (optionalP (attemptP (seqP (tokenP '0') (tokenP 'x')))))
        (recognizeSkipMany1SatisfyP isAsciiHexDigit))
      (optionalP modifiersP))

/-- The `parse_event` parser:
`choice((attempt(parse_raw_event()), attempt(parse_tracepoint_event()), attempt(parse_symbolic_event())))`. -/
def parseEventP : Parser PmuEvent :=
  orElseP (attemptP parseRawEventP)
    (orElseP (attemptP parseTracepointEventP) (attemptP parseSymbolicEventP))

/-- The standalone modifier-sequence parser used by the repository's
`test_modifiers` test: `(modifiers(), eof()).map(|(modifiers, _)| modifiers)`. -/
def modifiersEofP : Parser (List PmuEventModifier) :=
  mapP (fun x => x.1) (seqP modifiersP eofP)

/-! ## Observers and serialization -/

/-- Whether an outcome is a success. -/
def POut.isOk {α : Type} : POut α → Bool
  | .ok _ _ _ _ => true
  | _ => false

/-- The failure offset of an outcome, when it is a failure. -/
def POut.errPos {α : Type} : POut α → Option Nat
  | .err _ e => some e.pos
  | _ => none

/-- The character of each modifier, inverse of
`TryFrom<char> for PmuEventModifier`. -/
def modChar : PmuEventModifier → Char
  | .UserSpaceCounting => 'u'
  | .KernelCounting => 'k'
  | .HypervisorCounting => 'h'
  | .NonIdleCounting => 'I'
  | .GuestCounting => 'G'
  | .HostCounting => 'H'
  | .PreciseLevel => 'p'
  | .UseMaxPreciseLevel => 'P'
  | .ReadSampleValue => 'S'
  | .Pin => 'D'
  | .GroupWeak => 'W'
  | .GroupExclusive => 'e'
  | .BpfAggregation => 'b'

/-- The modifier a valid modifier character converts to (total helper;
meaningful only on characters accepted by `isModChar`). -/
def toModifier (c : Char) : PmuEventModifier :=
  (pmuEventModifierTryFrom c).getD .UserSpaceCounting

/-- One hexadecimal digit as a lowercase character. -/
def hexDigitChar : Nat → Char
  | 0 => '0'
  | 1 => '1'
  | 2 => '2'
  | 3 => '3'
  | 4 => '4'
  | 5 => '5'
  | 6 => '6'
  | 7 => '7'
  | 8 => '8'
  | 9 => '9'
  | 10 => 'a'
  | 11 => 'b'
  | 12 => 'c'
  | 13 => 'd'
  | 14 => 'e'
  | _ => 'f'

/-- Canonical lowercase hexadecimal rendering of a number, without a
`0x` prefix and without leading zeros (`0` renders as `"0"`). -/
def hexString (v : Nat) : String :=
  if v = 0 then "0" else String.mk ((Nat.digits 16 v).reverse.map hexDigitChar)

/-- The modifier suffix of a re-serialized event: empty when there are
no modifiers, otherwise a colon followed by the modifier characters.
This serialization is the one described by the round-trip property of
the specification. -/
def serializeModSuffix (mods : List PmuEventModifier) : String :=
  if mods = [] then "" else String.mk (':' :: mods.map modChar)

/-- Re-serialization of a parsed event, as described by the round-trip
property of the specification: the name, or `category:name`, or `r`
plus the hex value, followed by the modifier suffix.  Grouped events
are never produced by `parse_event` and are out of scope. -/
def serializePmuEvent : PmuEvent → String
  | .SymbolicEvent e => e.name ++ serializeModSuffix e.modifier
  | .TracepointEvent e => e.category ++ ":" ++ e.name ++ serializeModSuffix e.modifier
  | .RawEvent e => "r" ++ hexString e.value ++ serializeModSuffix e.modifier
  | .GroupedEvent _ => ""

/-! ## Concrete evaluations settling the closed claims -/

/-- C1 counterexample: on input `"r1z"` the raw alternative matches
only the proper prefix `"r1"` yet `parse_event` commits to it, leaving
`"z"` unconsumed — even though the symbolic alternative would parse the
entire input as the name `"r1z"`.  So an alternative matching only a
proper prefix is *not* rejected: the raw alternative carries no
end-of-input requirement. -/
theorem c1_counterexample_raw_commits_to_prefix :
    runP parseEventP "r1z" = .ok true (.RawEvent ⟨1, []⟩) ['z'] 2 ∧
    runP parseSymbolicEventP "r1z" = .ok true (.SymbolicEvent ⟨"r1z", []⟩) [] 3 :=
  ⟨rfl, rfl⟩

/-- C2: on the 17-hex-digit raw input `"r11111111111111111"`, whose
value exceeds the unsigned 64-bit range, `parse_event` panics — the
code `unwrap`s the overflowing `u64::from_str_radix` result instead of
surfacing an error value. -/
theorem c2_raw_overflow_panics :
    runP parseEventP "r11111111111111111" = .panic ∧
    fromStrRadix16 "11111111111111111" = none ∧
    2 ^ 64 ≤ 0x11111111111111111 :=
  ⟨rfl, rfl, by norm_num⟩

/-- C3 counterexample: the standalone modifier-sequence parse of
`":uppp"` yields `PreciseLevel` for each lowercase `p`, not
`UseMaxPreciseLevel` (which is the conversion of uppercase `P`). -/
theorem c3_counterexample_p_is_precise_level :
    runP modifiersEofP ":uppp" =
      .ok true [.UserSpaceCounting, .PreciseLevel, .PreciseLevel, .PreciseLevel] [] 5 ∧
    ([PmuEventModifier.UserSpaceCounting, .PreciseLevel, .PreciseLevel, .PreciseLevel] ≠
      [PmuEventModifier.UserSpaceCounting, .UseMaxPreciseLevel, .UseMaxPreciseLevel,
        .UseMaxPreciseLevel]) :=
  ⟨rfl, by decide⟩

/-- C3 amended: parsing `":uppp"` as a standalone modifier sequence
succeeds and yields
`[UserSpaceCounting, PreciseLevel, PreciseLevel, PreciseLevel]`. -/
theorem c3_uppp_modifiers :
    runP modifiersEofP ":uppp" =
      .ok true [.UserSpaceCounting, .PreciseLevel, .PreciseLevel, .PreciseLevel] [] 5 :=
  rfl

/-- C8 counterexample: `parse_event(":uvh")` fails at offset 0, not at
offset 2 — every alternative of `parse_event` rejects the leading colon
immediately.  (The offset-2 error belongs to the standalone
modifiers-then-eof parser of the repository's test.) -/
theorem c8_counterexample_parse_event_fails_at_zero :
    (runP parseEventP ":uvh").errPos = some 0 ∧
    (runP parseEventP ":uvh").errPos ≠ some 2 :=
  ⟨rfl, by decide⟩

/-- C8 amended: parsing `":uvh"` with the standalone
modifiers-then-eof parser (as in the repository's `test_modifiers`)
fails at offset 2 (the `v`), with unexpected character `v` and
"end of input" expected. -/
theorem c8_standalone_uvh_fails_at_two :
    runP modifiersEofP ":uvh" = .err true ⟨2, some 'v', ["end of input"], []⟩ :=
  rfl

/-- C10: the input `"r0x"` (raw prefix with no hex digits after it)
does not make `parse_event` fail: the raw alternative fails after
consuming `r`, `0`, `x` (at offset 3, end of input) and `attempt`
backtracks, so the input parses as the symbolic event named `"r0x"`
with no modifiers. -/
theorem c10_r0x_is_symbolic :
    runP parseEventP "r0x" = .ok true (.SymbolicEvent ⟨"r0x", []⟩) [] 3 ∧
    attemptP parseRawEventP "r0x".data 0 = .err false ⟨3, none, [], []⟩ :=
  ⟨rfl, rfl⟩

/-! ## Lemmas on modifier characters -/

/-- A character accepted by the `satisfy` predicate of `modifier()` is
one of the thirteen modifier characters. -/
theorem isModChar_cases {c : Char} (h : isModChar c = true) :
    c = 'u' ∨ c = 'k' ∨ c = 'h' ∨ c = 'I' ∨ c = 'G' ∨ c = 'H' ∨ c = 'p'
      ∨ c = 'P' ∨ c = 'S' ∨ c = 'D' ∨ c = 'W' ∨ c = 'e' ∨ c = 'b' := by
  simp only [isModChar, Bool.or_eq_true, decide_eq_true_eq] at h
  tauto

/-- On an accepted character the conversion succeeds. -/
theorem tryFrom_of_isModChar {c : Char} (h : isModChar c = true) :
    pmuEventModifierTryFrom c = some (toModifier c) := by
  rcases isModChar_cases h with rfl | rfl | rfl | rfl | rfl | rfl | rfl
    | rfl | rfl | rfl | rfl | rfl | rfl <;> rfl

/-- A successful conversion pins down the character. -/
theorem tryFrom_eq_modChar {c : Char} {m : PmuEventModifier}
    (h : pmuEventModifierTryFrom c = some m) : c = modChar m := by
  have hc : isModChar c = true := by
    by_contra hnc
    have hfalse : isModChar c = false := by
      cases hb : isModChar c
      · rfl
      · exact absurd hb hnc
    simp only [isModChar, Bool.or_eq_false_iff, decide_eq_false_iff_not] at hfalse
    obtain ⟨⟨⟨⟨⟨⟨⟨⟨⟨⟨⟨⟨h1, h2⟩, h3⟩, h4⟩, h5⟩, h6⟩, h7⟩, h8⟩, h9⟩, h10⟩, h11⟩, h12⟩,
      h13⟩ := hfalse
    unfold pmuEventModifierTryFrom at h
    rw [if_neg h1, if_neg h2, if_neg h3, if_neg h4, if_neg h5, if_neg h6, if_neg h7,
      if_neg h8, if_neg h9, if_neg h10, if_neg h11, if_neg h12, if_neg h13] at h
    cases h
  rcases isModChar_cases hc with rfl | rfl | rfl | rfl | rfl | rfl | rfl
    | rfl | rfl | rfl | rfl | rfl | rfl <;>
    (have h' := Option.some.inj h; subst h'; rfl)

theorem isModChar_modChar (m : PmuEventModifier) : isModChar (modChar m) = true := by
  cases m <;> rfl

theorem toModifier_modChar (m : PmuEventModifier) : toModifier (modChar m) = m := by
  cases m <;> rfl

/-! ## Evaluation lemmas for `modifier()` -/

theorem modifierP_nil (pos : Nat) :
    modifierP [] pos = .err false ⟨pos, none, [], ["Invalid modifier"]⟩ := rfl

theorem modifierP_cok {c : Char} (h : isModChar c = true) (rest : List Char) (pos : Nat) :
    modifierP (c :: rest) pos = .ok true (toModifier c) rest (pos + 1) := by
  simp [modifierP, messageP, mapPanic, satisfyP, h, tryFrom_of_isModChar h]

theorem modifierP_cerr {c : Char} (h : isModChar c = false) (rest : List Char) (pos : Nat) :
    modifierP (c :: rest) pos = .err false ⟨pos, some c, [], ["Invalid modifier"]⟩ := by
  simp [modifierP, messageP, mapPanic, satisfyP, h]

theorem modifierP_ne_panic (l : List Char) (pos : Nat) : modifierP l pos ≠ .panic := by
  cases l with
  | nil => simp [modifierP_nil]
  | cons c rest =>
    cases hc : isModChar c with
    | false => simp [modifierP_cerr hc]
    | true => simp [modifierP_cok hc]

theorem modifierP_ne_errTrue (l : List Char) (pos : Nat) (e : PError) :
    modifierP l pos ≠ .err true e := by
  cases l with
  | nil => simp [modifierP_nil]
  | cons c rest =>
    cases hc : isModChar c with
    | false => simp [modifierP_cerr hc]
    | true => simp [modifierP_cok hc]

theorem modifierP_ok_inv {l : List Char} {pos : Nat} {b : Bool} {m : PmuEventModifier}
    {r : List Char} {pp : Nat} (h : modifierP l pos = .ok b m r pp) :
    b = true ∧ l = modChar m :: r ∧ pp = pos + 1 := by
  cases l with
  | nil => simp [modifierP_nil] at h
  | cons c rest =>
    cases hc : isModChar c with
    | false => rw [modifierP_cerr hc] at h; simp at h
    | true =>
      rw [modifierP_cok hc] at h
      obtain ⟨hb, hm, hr, hp⟩ := POut.ok.inj h
      have : c = modChar m := tryFrom_eq_modChar (hm ▸ tryFrom_of_isModChar hc)
      exact ⟨hb.symm, by rw [this, hr], hp.symm⟩

/-! ## Evaluation lemmas for `count_min_max(1, 16, modifier())` -/

/-- One successful iteration of the `count_min_max` worker. -/
theorem countAux_step {c : Char} (hc : isModChar c = true) (mn mx : Nat)
    (acc : List PmuEventModifier) (cons : Bool) (cs : List Char) (pos : Nat) :
    countMinMaxAux modifierP mn (mx + 1) acc cons (c :: cs) pos =
      countMinMaxAux modifierP (mn - 1) mx (toModifier c :: acc) true cs (pos + 1) := by
  simp [countMinMaxAux, modifierP_cok hc]

/-- The worker on a run of valid modifier characters with the minimum
already met: consumes `min mx cs.length` characters. -/
theorem countAux_valid (cs : List Char) (h : ∀ c ∈ cs, isModChar c = true) :
    ∀ (mx : Nat) (acc : List PmuEventModifier) (pos : Nat),
      countMinMaxAux modifierP 0 mx acc true cs pos =
        .ok true (acc.reverse ++ (cs.take mx).map toModifier) (cs.drop mx)
          (pos + min mx cs.length) := by
  induction cs with
  | nil =>
    intro mx acc pos
    cases mx with
    | zero => simp [countMinMaxAux]
    | succ mx => simp [countMinMaxAux, modifierP_nil]
  | cons c cs ih =>
    intro mx acc pos
    cases mx with
    | zero => simp [countMinMaxAux]
    | succ mx =>
      have hc : isModChar c = true := h c (by simp)
      rw [countAux_step hc]
      rw [ih (fun c' hc' => h c' (by simp [hc'])) mx (toModifier c :: acc) (pos + 1)]
      simp [Nat.succ_min_succ]
      omega

/-- `count_min_max(1, 16, modifier())` on a nonempty run of valid
modifier characters. -/
theorem countMinMaxP_valid {cs : List Char} (h : ∀ c ∈ cs, isModChar c = true)
    (hne : cs ≠ []) (pos : Nat) :
    countMinMaxP 1 16 modifierP cs pos =
      .ok true ((cs.take 16).map toModifier) (cs.drop 16) (pos + min 16 cs.length) := by
  cases cs with
  | nil => exact absurd rfl hne
  | cons c cs =>
    have hc : isModChar c = true := h c (by simp)
    unfold countMinMaxP
    rw [show (16 : Nat) = 15 + 1 from rfl, countAux_step hc]
    rw [countAux_valid cs (fun c' hc' => h c' (by simp [hc'])) 15 [toModifier c] (pos + 1)]
    simp [Nat.succ_min_succ]
    omega

/-- `modifiers()` on a colon followed by a run of valid modifier
characters. -/
theorem modifiersP_valid {cs : List Char} (h : ∀ c ∈ cs, isModChar c = true)
    (hne : cs ≠ []) (pos : Nat) :
    modifiersP (':' :: cs) pos =
      .ok true ((cs.take 16).map toModifier) (cs.drop 16) (pos + 1 + min 16 cs.length) := by
  have ht : tokenP ':' (':' :: cs) pos = .ok true ':' cs (pos + 1) := by simp [tokenP]
  have hcount := countMinMaxP_valid h hne (pos + 1)
  simp [modifiersP, mapP, seqP, ht, hcount]

/-- `modifiers()` on a colon followed by nothing: a consumed failure
(the colon was eaten, no modifier followed). -/
theorem modifiersP_colon_only (pos : Nat) :
    modifiersP [':'] pos = .err true ⟨pos + 1, none, [], ["Invalid modifier"]⟩ := rfl

/-! ## C5, C6, C9 -/

/-- C5: a colon-introduced modifier suffix, parsed standalone against
end-of-input, succeeds exactly when it carries between 1 and 16 valid
modifier characters: zero characters after the colon fail, and so do 17
or more. -/
theorem c5_modifier_suffix_between_1_and_16 (cs : List Char)
    (h : ∀ c ∈ cs, isModChar c = true) :
    (runP modifiersEofP (String.mk (':' :: cs))).isOk = true ↔
      1 ≤ cs.length ∧ cs.length ≤ 16 := by
  show (modifiersEofP (':' :: cs) 0).isOk = true ↔ _
  cases cs with
  | nil =>
    rw [show modifiersEofP [':'] 0 =
      .err true ⟨1, none, [], ["Invalid modifier"]⟩ from rfl]
    simp [POut.isOk]
  | cons c cs =>
    unfold modifiersEofP mapP seqP
    rw [modifiersP_valid h (by simp) 0]
    rcases hd : (c :: cs).drop 16 with _ | ⟨d, ds⟩
    · have hlen : (c :: cs).length ≤ 16 := List.drop_eq_nil_iff.mp hd
      simp only [List.length_cons] at hlen
      simp [eofP, POut.isOk, List.length_cons]
      omega
    · have hlen : ¬ (c :: cs).length ≤ 16 := by
        intro hcon
        rw [List.drop_eq_nil_iff.mpr hcon] at hd
        simp at hd
      simp only [List.length_cons] at hlen
      simp [eofP, POut.isOk, List.length_cons]
      omega

/-- C5 witness: a suffix of exactly 16 valid modifier characters
parses successfully. -/
theorem c5_witness_sixteen :
    (runP modifiersEofP (String.mk (':' :: List.replicate 16 'u'))).isOk = true :=
  (c5_modifier_suffix_between_1_and_16 (List.replicate 16 'u')
    (by decide)).mpr (by decide)

/-- C6: each of the thirteen characters `u k h I G H p P S D W e b`
parses as the corresponding modifier, and any other single character
fails. -/
theorem c6_modifier_alphabet :
    runP modifierP "u" = .ok true .UserSpaceCounting [] 1 ∧
    runP modifierP "k" = .ok true .KernelCounting [] 1 ∧
    runP modifierP "h" = .ok true .HypervisorCounting [] 1 ∧
    runP modifierP "I" = .ok true .NonIdleCounting [] 1 ∧
    runP modifierP "G" = .ok true .GuestCounting [] 1 ∧
    runP modifierP "H" = .ok true .HostCounting [] 1 ∧
    runP modifierP "p" = .ok true .PreciseLevel [] 1 ∧
    runP modifierP "P" = .ok true .UseMaxPreciseLevel [] 1 ∧
    runP modifierP "S" = .ok true .ReadSampleValue [] 1 ∧
    runP modifierP "D" = .ok true .Pin [] 1 ∧
    runP modifierP "W" = .ok true .GroupWeak [] 1 ∧
    runP modifierP "e" = .ok true .GroupExclusive [] 1 ∧
    runP modifierP "b" = .ok true .BpfAggregation [] 1 ∧
    ∀ c : Char,
      c ∉ (['u', 'k', 'h', 'I', 'G', 'H', 'p', 'P', 'S', 'D', 'W', 'e', 'b'] : List Char) →
      (runP modifierP (String.mk [c])).isOk = false := by
  refine ⟨rfl, rfl, rfl, rfl, rfl, rfl, rfl, rfl, rfl, rfl, rfl, rfl, rfl, ?_⟩
  intro c hc
  have h : isModChar c = false := by
    cases hcb : isModChar c with
    | false => rfl
    | true =>
      rcases isModChar_cases hcb with rfl | rfl | rfl | rfl | rfl | rfl | rfl
        | rfl | rfl | rfl | rfl | rfl | rfl <;> simp at hc
  show (modifierP [c] 0).isOk = false
  rw [modifierP_cerr h]
  rfl

/-- C6 witness: the character `x` is not in the modifier alphabet and
fails to parse. -/
theorem c6_witness_x_fails :
    (runP modifierP (String.mk ['x'])).isOk = false :=
  c6_modifier_alphabet.2.2.2.2.2.2.2.2.2.2.2.2.2 'x' (by decide)

/-- C9: the `unwrap` inside `modifier()` is unreachable on the error
branch: every character accepted by the `satisfy` predicate lies in the
success domain of the `TryFrom<char>` conversion, and the `modifier()`
parser never panics on any input. -/
theorem c9_modifier_unwrap_never_panics :
    (∀ c : Char, isModChar c = true → (pmuEventModifierTryFrom c).isSome = true) ∧
    ∀ (l : List Char) (pos : Nat), modifierP l pos ≠ .panic := by
  refine ⟨fun c h => ?_, modifierP_ne_panic⟩
  rw [tryFrom_of_isModChar h]
  rfl

/-- C9 witness: instantiated at the character `u` and at a concrete
input. -/
theorem c9_witness :
    (pmuEventModifierTryFrom 'u').isSome = true ∧ modifierP ['u'] 0 ≠ .panic :=
  ⟨c9_modifier_unwrap_never_panics.1 'u' (by decide),
   c9_modifier_unwrap_never_panics.2 ['u'] 0⟩

/-! ## Inversion lemmas for the combinators -/

theorem seqP_ok_inv {α β : Type} {p : Parser α} {q : Parser β} {l : List Char}
    {pos : Nat} {b : Bool} {x : α × β} {r : List Char} {pp : Nat}
    (h : seqP p q l pos = .ok b x r pp) :
    ∃ b₁ r₁ p₁ b₂, p l pos = .ok b₁ x.1 r₁ p₁ ∧ q r₁ p₁ = .ok b₂ x.2 r pp ∧
      b = (b₁ || b₂) := by
  unfold seqP at h
  cases hp : p l pos with
  | ok b₁ a r₁ p₁ =>
    rw [hp] at h
    dsimp only at h
    cases hq : q r₁ p₁ with
    | ok b₂ a₂ r₂ p₂ =>
      rw [hq] at h
      dsimp only at h
      obtain ⟨hb, hx, hr, hpp⟩ := POut.ok.inj h
      subst hx hr hpp
      exact ⟨b₁, r₁, p₁, b₂, rfl, hq, hb.symm⟩
    | err b₂ e => rw [hq] at h; dsimp only at h; cases h
    | panic => rw [hq] at h; dsimp only at h; cases h
  | err b' e => rw [hp] at h; dsimp only at h; cases h
  | panic => rw [hp] at h; dsimp only at h; cases h

theorem mapP_ok_inv {α β : Type} {f : α → β} {p : Parser α} {l : List Char}
    {pos : Nat} {b : Bool} {v : β} {r : List Char} {pp : Nat}
    (h : mapP f p l pos = .ok b v r pp) :
    ∃ a, p l pos = .ok b a r pp ∧ v = f a := by
  unfold mapP at h
  cases hp : p l pos with
  | ok b' a r' pp' =>
    rw [hp] at h
    dsimp only at h
    obtain ⟨hb, hv, hr, hpp⟩ := POut.ok.inj h
    subst hb hr hpp
    exact ⟨a, rfl, hv.symm⟩
  | err b' e => rw [hp] at h; dsimp only at h; cases h
  | panic => rw [hp] at h; dsimp only at h; cases h

theorem mapPanic_ok_inv {α β : Type} {f : α → Option β} {p : Parser α} {l : List Char}
    {pos : Nat} {b : Bool} {v : β} {r : List Char} {pp : Nat}
    (h : mapPanic f p l pos = .ok b v r pp) :
    ∃ a, p l pos = .ok b a r pp ∧ f a = some v := by
  unfold mapPanic at h
  cases hp : p l pos with
  | ok b' a r' pp' =>
    rw [hp] at h
    dsimp only at h
    cases hf : f a with
    | some w =>
      rw [hf] at h
      dsimp only at h
      obtain ⟨hb, hv, hr, hpp⟩ := POut.ok.inj h
      subst hb hr hpp
      exact ⟨a, rfl, by rw [hf, hv]⟩
    | none => rw [hf] at h; dsimp only at h; cases h
  | err b' e => rw [hp] at h; dsimp only at h; cases h
  | panic => rw [hp] at h; dsimp only at h; cases h

theorem attemptP_ok_inv {α : Type} {p : Parser α} {l : List Char} {pos : Nat}
    {b : Bool} {a : α} {r : List Char} {pp : Nat}
    (h : attemptP p l pos = .ok b a r pp) : p l pos = .ok b a r pp := by
  unfold attemptP at h
  cases hp : p l pos with
  | ok b' a' r' pp' => rw [hp] at h; dsimp only at h; exact h
  | err b' e => rw [hp] at h; cases b' <;> dsimp only at h <;> cases h
  | panic => rw [hp] at h; dsimp only at h; cases h

/-- `attempt` never fails having consumed input: full backtracking. -/
theorem attemptP_ne_errTrue {α : Type} (p : Parser α) (l : List Char) (pos : Nat)
    (e : PError) : attemptP p l pos ≠ .err true e := by
  unfold attemptP
  cases hp : p l pos with
  | ok b' a' r' pp' => dsimp only; simp
  | err b' e' => cases b' <;> dsimp only <;> simp
  | panic => dsimp only; simp

theorem orElseP_ok_inv {α : Type} {p q : Parser α} {l : List Char} {pos : Nat}
    {b : Bool} {a : α} {r : List Char} {pp : Nat}
    (h : orElseP p q l pos = .ok b a r pp) :
    p l pos = .ok b a r pp ∨
      (∃ e, p l pos = .err false e ∧ q l pos = .ok b a r pp) := by
  unfold orElseP at h
  cases hp : p l pos with
  | ok b' a' r' pp' => rw [hp] at h; dsimp only at h; exact Or.inl h
  | err b' e =>
    cases b' with
    | true => rw [hp] at h; dsimp only at h; cases h
    | false =>
      rw [hp] at h
      dsimp only at h
      refine Or.inr ⟨e, rfl, ?_⟩
      cases hq : q l pos with
      | ok b₂ a₂ r₂ p₂ => rw [hq] at h; dsimp only at h; exact h
      | err b₂ e₂ => rw [hq] at h; cases b₂ <;> dsimp only at h <;> cases h
      | panic => rw [hq] at h; dsimp only at h; cases h
  | panic => rw [hp] at h; dsimp only at h; cases h

/-- Forwarding: a successful first alternative is the result of the
choice. -/
theorem orElseP_ok_first {α : Type} {p : Parser α} (q : Parser α) {l : List Char}
    {pos : Nat} {b : Bool} {a : α} {r : List Char} {pp : Nat}
    (h : p l pos = .ok b a r pp) : orElseP p q l pos = .ok b a r pp := by
  unfold orElseP
  rw [h]

/-- Forwarding: when the first alternative fails empty, a successful
second alternative is the result of the choice. -/
theorem orElseP_ok_second {α : Type} {p q : Parser α} {l : List Char}
    {pos : Nat} {e : PError} {b : Bool} {a : α} {r : List Char} {pp : Nat}
    (h₁ : p l pos = .err false e) (h₂ : q l pos = .ok b a r pp) :
    orElseP p q l pos = .ok b a r pp := by
  unfold orElseP
  rw [h₁]
  dsimp only
  rw [h₂]

theorem optionalP_ok_inv {α : Type} {p : Parser α} {l : List Char} {pos : Nat}
    {b : Bool} {o : Option α} {r : List Char} {pp : Nat}
    (h : optionalP p l pos = .ok b o r pp) :
    (o = none ∧ b = false ∧ r = l ∧ pp = pos ∧ ∃ e, p l pos = .err false e) ∨
      (∃ a, o = some a ∧ p l pos = .ok b a r pp) := by
  unfold optionalP at h
  cases hp : p l pos with
  | ok b' a' r' pp' =>
    rw [hp] at h
    dsimp only at h
    obtain ⟨hb, ho, hr, hpp⟩ := POut.ok.inj h
    subst hb hr hpp
    exact Or.inr ⟨a', ho.symm, rfl⟩
  | err b' e =>
    cases b' with
    | true => rw [hp] at h; dsimp only at h; cases h
    | false =>
      rw [hp] at h
      dsimp only at h
      obtain ⟨hb, ho, hr, hpp⟩ := POut.ok.inj h
      exact Or.inl ⟨ho.symm, hb.symm, hr.symm, hpp.symm, e, rfl⟩
  | panic => rw [hp] at h; dsimp only at h; cases h

theorem tokenP_ok_inv {c : Char} {l : List Char} {pos : Nat} {b : Bool} {a : Char}
    {r : List Char} {pp : Nat} (h : tokenP c l pos = .ok b a r pp) :
    b = true ∧ a = c ∧ l = c :: r ∧ pp = pos + 1 := by
  unfold tokenP at h
  cases l with
  | nil => cases h
  | cons c' rest =>
    dsimp only at h
    by_cases hc : c' = c
    · rw [if_pos hc] at h
      obtain ⟨hb, ha, hr, hpp⟩ := POut.ok.inj h
      subst hc hr
      exact ⟨hb.symm, ha.symm, rfl, hpp.symm⟩
    · rw [if_neg hc] at h; cases h

theorem satisfyP_ok_inv {f : Char → Bool} {l : List Char} {pos : Nat} {b : Bool}
    {a : Char} {r : List Char} {pp : Nat} (h : satisfyP f l pos = .ok b a r pp) :
    b = true ∧ l = a :: r ∧ f a = true ∧ pp = pos + 1 := by
  unfold satisfyP at h
  cases l with
  | nil => cases h
  | cons c' rest =>
    dsimp only at h
    by_cases hc : f c' = true
    · rw [if_pos hc] at h
      obtain ⟨hb, ha, hr, hpp⟩ := POut.ok.inj h
      subst ha hr
      exact ⟨hb.symm, rfl, hc, hpp.symm⟩
    · rw [if_neg hc] at h; cases h

theorem eofP_ok_inv {l : List Char} {pos : Nat} {b : Bool} {u : Unit}
    {r : List Char} {pp : Nat} (h : eofP l pos = .ok b u r pp) :
    l = [] ∧ r = [] ∧ b = false ∧ pp = pos := by
  unfold eofP at h
  cases l with
  | nil =>
    obtain ⟨hb, _, hr, hpp⟩ := POut.ok.inj h
    exact ⟨rfl, hr.symm, hb.symm, hpp.symm⟩
  | cons c rest => cases h

/-- Characters dropped past by `dropWhile` start with a failing one. -/
theorem dropWhile_head?_false {α : Type} (f : α → Bool) :
    ∀ (l : List α) (c : α), (l.dropWhile f).head? = some c → f c = false := by
  intro l
  induction l with
  | nil => intro c h; cases h
  | cons a t ih =>
    intro c h
    by_cases ha : f a = true
    · rw [List.dropWhile_cons_of_pos ha] at h
      exact ih c h
    · rw [List.dropWhile_cons_of_neg ha] at h
      obtain rfl := Option.some.inj h
      exact Bool.not_eq_true _ ▸ ha

theorem many1SatisfyP_ok_inv {f : Char → Bool} {l : List Char} {pos : Nat}
    {b : Bool} {s : String} {r : List Char} {pp : Nat}
    (h : many1SatisfyP f l pos = .ok b s r pp) :
    b = true ∧ s.data ≠ [] ∧ (∀ c ∈ s.data, f c = true) ∧ s.data ++ r = l ∧
      (∀ c, r.head? = some c → f c = false) ∧ pp = pos + s.data.length := by
  unfold many1SatisfyP at h
  cases l with
  | nil => cases h
  | cons c rest =>
    dsimp only at h
    by_cases hc : f c = true
    · rw [if_pos hc] at h
      obtain ⟨hb, hs, hr, hpp⟩ := POut.ok.inj h
      subst hr
      have hdata : s.data = (c :: rest).takeWhile f := by rw [← hs]
      refine ⟨hb.symm, ?_, ?_, ?_, ?_, ?_⟩
      · rw [hdata, List.takeWhile_cons_of_pos hc]; simp
      · intro c' hc'
        rw [hdata] at hc'
        exact List.mem_takeWhile_imp hc'
      · rw [hdata]
        exact List.takeWhile_append_dropWhile f (c :: rest)
      · intro c' hc'
        exact dropWhile_head?_false f (c :: rest) c' hc'
      · rw [hdata, ← hpp]
    · rw [if_neg hc] at h; cases h

/-! ## Inversion for `count_min_max(_, _, modifier())` and `modifiers()` -/

theorem countAux_ok_inv :
    ∀ (mx mn : Nat) (acc : List PmuEventModifier) (cons : Bool) (l : List Char)
      (pos : Nat) {b : Bool} {ms : List PmuEventModifier} {r : List Char} {pp : Nat},
      mn ≤ mx →
      countMinMaxAux modifierP mn mx acc cons l pos = .ok b ms r pp →
      ∃ new, ms = acc.reverse ++ new ∧ l = new.map modChar ++ r ∧
        mn ≤ new.length ∧ new.length ≤ mx ∧ pp = pos + new.length := by
  intro mx
  induction mx with
  | zero =>
    intro mn acc cons l pos b ms r pp hmn h
    unfold countMinMaxAux at h
    obtain ⟨_, hms, hr, hpp⟩ := POut.ok.inj h
    exact ⟨[], by simp [← hms], by simp [← hr], by simpa using hmn, by simp,
      by simp [← hpp]⟩
  | succ mx ih =>
    intro mn acc cons l pos b ms r pp hmn h
    unfold countMinMaxAux at h
    cases hm : modifierP l pos with
    | ok bi m r₁ p₁ =>
      rw [hm] at h
      dsimp only at h
      obtain ⟨hbi, hl, hp₁⟩ := modifierP_ok_inv hm
      obtain ⟨new', hms, hl', hmn', hmx', hpp⟩ :=
        ih (mn - 1) (m :: acc) (cons || bi) r₁ p₁ (by omega) h
      refine ⟨m :: new', ?_, ?_, ?_, ?_, ?_⟩
      · rw [hms]; simp
      · rw [hl, hl']; simp
      · simp only [List.length_cons]; omega
      · simp only [List.length_cons]; omega
      · rw [hpp, hp₁]; simp only [List.length_cons]; omega
    | err bi e =>
      cases bi with
      | true => exact absurd hm (modifierP_ne_errTrue l pos e)
      | false =>
        rw [hm] at h
        dsimp only at h
        by_cases hmn0 : mn = 0
        · rw [if_pos hmn0] at h
          obtain ⟨_, hms, hr, hpp⟩ := POut.ok.inj h
          exact ⟨[], by simp [← hms], by simp [← hr], by simp [hmn0], by simp,
            by simp [← hpp]⟩
        · rw [if_neg hmn0] at h; cases h
    | panic => exact absurd hm (modifierP_ne_panic l pos)

theorem modifiersP_ok_inv {l : List Char} {pos : Nat} {b : Bool}
    {ms : List PmuEventModifier} {r : List Char} {pp : Nat}
    (h : modifiersP l pos = .ok b ms r pp) :
    b = true ∧ l = ':' :: ms.map modChar ++ r ∧ 1 ≤ ms.length ∧ ms.length ≤ 16 ∧
      pp = pos + 1 + ms.length := by
  unfold modifiersP at h
  obtain ⟨x, hseq, hval⟩ := mapP_ok_inv h
  obtain ⟨b₁, r₁, p₁, b₂, htok, hcount, hb⟩ := seqP_ok_inv hseq
  obtain ⟨hb₁, _, hl, hp₁⟩ := tokenP_ok_inv htok
  obtain ⟨new, hms, hl', hmn, hmx, hpp⟩ :=
    countAux_ok_inv 16 1 [] false r₁ p₁ (by omega) hcount
  simp only [List.reverse_nil, List.nil_append] at hms
  subst hms hval
  refine ⟨by rw [hb, hb₁]; rfl, ?_, hmn, hmx, ?_⟩
  · rw [hl, hl']; simp
  · rw [hpp, hp₁]

/-! ## `parse_name`: characterization (C4) -/

/-- Inversion of a successful `parse_name`: the consumed prefix is
`l` minus `r`, at least two characters long, starts with a name-start
character, continues with name-continuation characters, and stops only
at a non-continuation character. -/
theorem parseNameP_ok_inv {l : List Char} {pos : Nat} {b : Bool} {s : String}
    {r : List Char} {pp : Nat} (h : parseNameP l pos = .ok b s r pp) :
    b = true ∧ s.data ++ r = l ∧ 2 ≤ s.data.length ∧
      (∃ c t, s.data = c :: t ∧ isNameStart c = true ∧ t ≠ [] ∧
        ∀ c' ∈ t, isNameCont c' = true) ∧
      (∀ c, r.head? = some c → isNameCont c = false) ∧ pp = pos + s.data.length := by
  unfold parseNameP at h
  obtain ⟨x, hseq, hval⟩ := mapP_ok_inv h
  obtain ⟨b₁, r₁, p₁, b₂, hsat, hmany, hb⟩ := seqP_ok_inv hseq
  obtain ⟨hb₁, hl, hstart, hp₁⟩ := satisfyP_ok_inv hsat
  obtain ⟨hb₂, hne, hall, happ, hstop, hpp⟩ := many1SatisfyP_ok_inv hmany
  have hdata : s.data = x.1 :: x.2.data := by rw [hval]
  refine ⟨by rw [hb, hb₁]; rfl, ?_, ?_, ?_, hstop, ?_⟩
  · rw [hdata, hl, ← happ]; rfl
  · rw [hdata]
    simp only [List.length_cons]
    have : 1 ≤ x.2.data.length := List.length_pos.mpr hne
    omega
  · exact ⟨x.1, x.2.data, hdata, hstart, hne, hall⟩
  · rw [hdata, hpp, hp₁]
    simp only [List.length_cons]
    omega

/-- Forward evaluation of `parse_name` on an input whose first two
characters are acceptable. -/
theorem parseNameP_eval_ok {c₁ c₂ : Char} (h₁ : isNameStart c₁ = true)
    (h₂ : isNameCont c₂ = true) (t : List Char) (pos : Nat) :
    parseNameP (c₁ :: c₂ :: t) pos =
      .ok true (String.mk (c₁ :: (c₂ :: t).takeWhile isNameCont))
        ((c₂ :: t).dropWhile isNameCont)
        (pos + 1 + ((c₂ :: t).takeWhile isNameCont).length) := by
  have hsat : satisfyP isNameStart (c₁ :: c₂ :: t) pos =
      .ok true c₁ (c₂ :: t) (pos + 1) := by simp [satisfyP, h₁]
  have hmany : many1SatisfyP isNameCont (c₂ :: t) (pos + 1) =
      .ok true (String.mk ((c₂ :: t).takeWhile isNameCont))
        ((c₂ :: t).dropWhile isNameCont)
        (pos + 1 + ((c₂ :: t).takeWhile isNameCont).length) := by
    simp [many1SatisfyP, h₂]
  simp [parseNameP, mapP, seqP, hsat, hmany]

/-- Failure cases of `parse_name`: empty input, bad first character,
input exhausted after the first character, bad second character. -/
theorem parseNameP_not_ok {l : List Char} {pos : Nat}
    (hshape : ¬ ∃ c₁ c₂ t, l = c₁ :: c₂ :: t ∧ isNameStart c₁ = true ∧
      isNameCont c₂ = true) :
    ∀ b s r pp, parseNameP l pos ≠ .ok b s r pp := by
  intro b s r pp h
  obtain ⟨_, happ, hlen, ⟨c, t, hdata, hstart, htne, hall⟩, _, _⟩ := parseNameP_ok_inv h
  rcases t with _ | ⟨c₂, t'⟩
  · exact htne rfl
  · refine hshape ⟨c, c₂, t' ++ r, ?_, hstart, hall c₂ (by simp)⟩
    rw [← happ, hdata]
    simp

/-- C4: the name-token parser succeeds exactly on inputs whose first
character is in the name-start set and whose second character is in the
name-continuation set; on success it returns the exact consumed prefix
(case preserved), which is at least two characters long — so a
single-character name never parses — consisting of a name-start
character followed by one or more name-continuation characters, taken
maximally. -/
theorem c4_parse_name_characterization (l : List Char) (pos : Nat) :
    ((∃ b s r pp, parseNameP l pos = .ok b s r pp) ↔
      ∃ c₁ c₂ t, l = c₁ :: c₂ :: t ∧ isNameStart c₁ = true ∧ isNameCont c₂ = true) ∧
    ∀ b s r pp, parseNameP l pos = .ok b s r pp →
      s.data ++ r = l ∧ 2 ≤ s.data.length ∧
      (∃ c t, s.data = c :: t ∧ isNameStart c = true ∧ t ≠ [] ∧
        ∀ c' ∈ t, isNameCont c' = true) ∧
      (∀ c, r.head? = some c → isNameCont c = false) := by
  constructor
  · constructor
    · rintro ⟨b, s, r, pp, h⟩
      by_contra hshape
      exact parseNameP_not_ok hshape b s r pp h
    · rintro ⟨c₁, c₂, t, rfl, h₁, h₂⟩
      exact ⟨_, _, _, _, parseNameP_eval_ok h₁ h₂ t pos⟩
  · intro b s r pp h
    obtain ⟨_, happ, hlen, hshape, hstop, _⟩ := parseNameP_ok_inv h
    exact ⟨happ, hlen, hshape, hstop⟩

/-- C4 witness: instantiated on the input `cpu-cycles:P`, whose name
token is the ten-character prefix `cpu-cycles`. -/
theorem c4_witness :
    parseNameP "cpu-cycles:P".data 0 = .ok true "cpu-cycles" [':', 'P'] 10 ∧
    ("cpu-cycles".data ++ [':', 'P'] = "cpu-cycles:P".data ∧
      2 ≤ "cpu-cycles".data.length ∧
      (∃ c t, "cpu-cycles".data = c :: t ∧ isNameStart c = true ∧ t ≠ [] ∧
        ∀ c' ∈ t, isNameCont c' = true) ∧
      (∀ c, ([':', 'P'] : List Char).head? = some c → isNameCont c = false)) :=
  ⟨rfl, (c4_parse_name_characterization "cpu-cycles:P".data 0).2 true "cpu-cycles"
    [':', 'P'] 10 rfl⟩

/-! ## C1: ordered choice in `parse_event` -/

theorem parseTracepointEventP_ok_rest_nil {l : List Char} {pos : Nat} {b : Bool}
    {e : PmuEvent} {r : List Char} {pp : Nat}
    (h : parseTracepointEventP l pos = .ok b e r pp) : r = [] := by
  unfold parseTracepointEventP at h
  obtain ⟨x, hseq, _⟩ := mapP_ok_inv h
  obtain ⟨b₁, r₁, p₁, b₂, _, heof, _⟩ := seqP_ok_inv hseq
  obtain ⟨_, hr, _, _⟩ := eofP_ok_inv heof
  exact hr

theorem parseSymbolicEventP_ok_rest_nil {l : List Char} {pos : Nat} {b : Bool}
    {e : PmuEvent} {r : List Char} {pp : Nat}
    (h : parseSymbolicEventP l pos = .ok b e r pp) : r = [] := by
  unfold parseSymbolicEventP at h
  obtain ⟨x, hseq, _⟩ := mapP_ok_inv h
  obtain ⟨b₁, r₁, p₁, b₂, _, heof, _⟩ := seqP_ok_inv hseq
  obtain ⟨_, hr, _, _⟩ := eofP_ok_inv heof
  exact hr

/-- C1 amended: `parse_event` tries raw, tracepoint, symbolic in that
fixed order and commits to the first alternative that *succeeds*, with
full backtracking across alternatives (an alternative that fails never
consumes input, thanks to `attempt`).  The tracepoint and symbolic
alternatives succeed only by reaching end-of-input; the raw alternative
carries no such requirement, so it may commit while matching only a
prefix of the input. -/
theorem c1_ordered_choice (l : List Char) (pos : Nat) :
    (∀ e, attemptP parseRawEventP l pos ≠ .err true e) ∧
    (∀ e, attemptP parseTracepointEventP l pos ≠ .err true e) ∧
    (∀ e, attemptP parseSymbolicEventP l pos ≠ .err true e) ∧
    (∀ b a r pp, attemptP parseRawEventP l pos = .ok b a r pp →
      parseEventP l pos = .ok b a r pp) ∧
    (∀ e₁ b a r pp, attemptP parseRawEventP l pos = .err false e₁ →
      attemptP parseTracepointEventP l pos = .ok b a r pp →
      parseEventP l pos = .ok b a r pp) ∧
    (∀ e₁ e₂ b a r pp, attemptP parseRawEventP l pos = .err false e₁ →
      attemptP parseTracepointEventP l pos = .err false e₂ →
      attemptP parseSymbolicEventP l pos = .ok b a r pp →
      parseEventP l pos = .ok b a r pp) ∧
    (∀ b a r pp, parseTracepointEventP l pos = .ok b a r pp → r = []) ∧
    (∀ b a r pp, parseSymbolicEventP l pos = .ok b a r pp → r = []) := by
  refine ⟨attemptP_ne_errTrue _ l pos, attemptP_ne_errTrue _ l pos,
    attemptP_ne_errTrue _ l pos, ?_, ?_, ?_,
    fun b a r pp h => parseTracepointEventP_ok_rest_nil h,
    fun b a r pp h => parseSymbolicEventP_ok_rest_nil h⟩
  · intro b a r pp h
    exact orElseP_ok_first _ h
  · intro e₁ b a r pp h₁ h₂
    exact orElseP_ok_second h₁ (orElseP_ok_first _ h₂)
  · intro e₁ e₂ b a r pp h₁ h₂ h₃
    exact orElseP_ok_second h₁ (orElseP_ok_second h₂ h₃)

/-- C1 witness: the ordering conjunct applied on the concrete input
`ab`, where the raw and tracepoint alternatives fail empty and the
symbolic alternative parses the whole input. -/
theorem c1_ordered_choice_witness :
    parseEventP "ab".data 0 = .ok true (.SymbolicEvent ⟨"ab", []⟩) [] 2 :=
  (c1_ordered_choice "ab".data 0).2.2.2.2.2.1 _ _ _ _ _ _ rfl rfl rfl

/-! ## Hexadecimal rendering and parsing round-trip -/

theorem isAsciiHexDigit_hexDigitChar (d : Nat) :
    isAsciiHexDigit (hexDigitChar d) = true := by
  unfold hexDigitChar
  split <;> decide

theorem hexCharVal_hexDigitChar {d : Nat} (h : d < 16) :
    hexCharVal (hexDigitChar d) = some d := by
  interval_cases d <;> decide

theorem hexDigitChar_ne_zero_char {d : Nat} (h : d < 16) (h0 : d ≠ 0) :
    hexDigitChar d ≠ '0' := by
  interval_cases d <;> simp_all <;> decide

/-- Digit values of a rendered digit list. -/
theorem hexDigitVals_map (L : List Nat) (h : ∀ d ∈ L, d < 16) :
    hexDigitVals (L.map hexDigitChar) = some L := by
  induction L with
  | nil => rfl
  | cons d L ih =>
    have hd : d < 16 := h d (by simp)
    simp only [List.map_cons, hexDigitVals, hexCharVal_hexDigitChar hd,
      ih (fun d' hd' => h d' (by simp [hd']))]

/-- Folding most-significant-first digits recovers the little-endian
digit value. -/
theorem foldl_reverse_ofDigits (L : List Nat) :
    ∀ a : Nat, L.reverse.foldl (fun x d => x * 16 + d) a =
      a * 16 ^ L.length + Nat.ofDigits 16 L := by
  induction L with
  | nil => intro a; simp
  | cons d L ih =>
    intro a
    rw [List.reverse_cons, List.foldl_append, ih a]
    simp only [List.foldl_cons, List.foldl_nil, List.length_cons, Nat.ofDigits_cons]
    ring_nf

/-- `u64::from_str_radix` inverts the hexadecimal rendering for every
value in the unsigned 64-bit range. -/
theorem fromStrRadix16_hexString {v : Nat} (hv : v < 2 ^ 64) :
    fromStrRadix16 (hexString v) = some v := by
  by_cases h0 : v = 0
  · subst h0
    rfl
  · unfold hexString fromStrRadix16
    rw [if_neg h0]
    have hne : Nat.digits 16 v ≠ [] := Nat.digits_ne_nil_iff_ne_zero.mpr h0
    have hdata : (String.mk ((Nat.digits 16 v).reverse.map hexDigitChar)).data =
        (Nat.digits 16 v).reverse.map hexDigitChar := rfl
    rw [hdata]
    have hnil : (Nat.digits 16 v).reverse.map hexDigitChar ≠ [] := by
      simp [hne]
    rw [if_neg hnil]
    have hvals : hexDigitVals ((Nat.digits 16 v).reverse.map hexDigitChar) =
        some (Nat.digits 16 v).reverse := by
      rw [show (Nat.digits 16 v).reverse.map hexDigitChar =
        ((Nat.digits 16 v).reverse).map hexDigitChar from rfl]
      exact hexDigitVals_map _ (fun d hd =>
        Nat.digits_lt_base (by norm_num) (List.mem_reverse.mp hd))
    rw [hvals]
    have hfold : (Nat.digits 16 v).reverse.foldl (fun x d => x * 16 + d) 0 = v := by
      rw [foldl_reverse_ofDigits (Nat.digits 16 v) 0]
      simp [Nat.ofDigits_digits]
    dsimp only
    rw [hfold, if_pos hv]

/-- A successful `from_str_radix` value is within the 64-bit range. -/
theorem fromStrRadix16_lt {s : String} {v : Nat} (h : fromStrRadix16 s = some v) :
    v < 2 ^ 64 := by
  unfold fromStrRadix16 at h
  by_cases hnil : s.data = []
  · rw [if_pos hnil] at h; cases h
  · rw [if_neg hnil] at h
    cases hd : hexDigitVals s.data with
    | none => rw [hd] at h; cases h
    | some ds =>
      rw [hd] at h
      dsimp only at h
      by_cases hlt : ds.foldl (fun a d => a * 16 + d) 0 < 2 ^ 64
      · rw [if_pos hlt] at h
        obtain rfl := Option.some.inj h
        exact hlt
      · rw [if_neg hlt] at h; cases h

/-! ## Forward evaluation of `parse_raw_event` on a re-serialized event -/

theorem attemptP_ok_fwd {α : Type} {p : Parser α} {l : List Char} {pos : Nat}
    {b : Bool} {a : α} {r : List Char} {pp : Nat}
    (h : p l pos = .ok b a r pp) : attemptP p l pos = .ok b a r pp := by
  unfold attemptP
  rw [h]

/-- The optional `0x` prefix parser yields `none` whenever the input
does not start with the two characters `0`, `x`. -/
theorem opt0x_none {l : List Char} (hno : ¬ ∃ t, l = '0' :: 'x' :: t) (pos : Nat) :
    optionalP (attemptP (seqP (tokenP '0') (tokenP 'x'))) l pos =
      .ok false none l pos := by
  rcases l with _ | ⟨c, t⟩
  · rfl
  · by_cases hc : c = '0'
    · subst hc
      rcases t with _ | ⟨c₂, t₂⟩
      · rfl
      · by_cases hx : c₂ = 'x'
        · exact absurd ⟨t₂, by rw [hx]⟩ hno
        · simp [optionalP, attemptP, seqP, tokenP, hx]
    · simp [optionalP, attemptP, seqP, tokenP, hc]

theorem takeWhile_append_exact {f : Char → Bool} :
    ∀ (a b : List Char), (∀ c ∈ a, f c = true) → (∀ c, b.head? = some c → f c = false) →
      (a ++ b).takeWhile f = a ∧ (a ++ b).dropWhile f = b := by
  intro a
  induction a with
  | nil =>
    intro b _ hb
    rcases b with _ | ⟨c, t⟩
    · simp
    · have := hb c rfl
      simp [List.takeWhile_cons, List.dropWhile_cons, this]
  | cons c a' ih =>
    intro b ha hb
    have hc : f c = true := ha c (by simp)
    have := ih b (fun c' hc' => ha c' (by simp [hc'])) hb
    simp [List.takeWhile_cons, List.dropWhile_cons, hc, this.1, this.2]

/-- `many1(satisfy f)` on a run of satisfying characters followed by a
stopper: consumes exactly the run. -/
theorem many1Satisfy_exact {f : Char → Bool} {a b : List Char} (ha : a ≠ [])
    (hall : ∀ c ∈ a, f c = true) (hb : ∀ c, b.head? = some c → f c = false)
    (pos : Nat) :
    many1SatisfyP f (a ++ b) pos = .ok true (String.mk a) b (pos + a.length) := by
  rcases a with _ | ⟨c, a'⟩
  · exact absurd rfl ha
  · have hc : f c = true := hall c (by simp)
    obtain ⟨htake, hdrop⟩ :=
      takeWhile_append_exact a' b (fun c' hc' => hall c' (by simp [hc'])) hb
    simp [many1SatisfyP, hc, htake, hdrop]

theorem map_toModifier_modChar (mods : List PmuEventModifier) :
    (mods.map modChar).map toModifier = mods := by
  induction mods with
  | nil => rfl
  | cons m mods ih => simp [toModifier_modChar, ih]

theorem serializeModSuffix_nil : (serializeModSuffix []).data = [] := rfl

theorem serializeModSuffix_ne_nil {mods : List PmuEventModifier} (h : mods ≠ []) :
    (serializeModSuffix mods).data = ':' :: mods.map modChar := by
  simp [serializeModSuffix, h]

/-- The optional modifier suffix parser consumes exactly the
re-serialized suffix and returns the original modifier list. -/
theorem optionalModifiers_suffix (mods : List PmuEventModifier)
    (hlen : mods.length ≤ 16) (pos : Nat) :
    optionalP modifiersP (serializeModSuffix mods).data pos =
      .ok (mods ≠ []) (if mods = [] then none else some mods) []
        (pos + (serializeModSuffix mods).data.length) := by
  by_cases hnil : mods = []
  · subst hnil
    simp only [serializeModSuffix_nil, if_pos rfl]
    rfl
  · rw [serializeModSuffix_ne_nil hnil, if_neg hnil]
    have hvalid : ∀ c ∈ mods.map modChar, isModChar c = true := by
      intro c hc
      obtain ⟨m, _, rfl⟩ := List.mem_map.mp hc
      exact isModChar_modChar m
    have hne : mods.map modChar ≠ [] := by simp [hnil]
    have hmv := modifiersP_valid hvalid hne pos
    have htake : (mods.map modChar).take 16 = mods.map modChar :=
      List.take_of_length_le (by simp [hlen])
    have hdrop : (mods.map modChar).drop 16 = [] :=
      List.drop_eq_nil_iff.mpr (by simp [hlen])
    rw [htake, hdrop, map_toModifier_modChar] at hmv
    unfold optionalP
    rw [hmv]
    simp [hnil, List.length_cons, Nat.min_eq_right (by simp [hlen] : mods.length ≤ 16)]
    omega

/-! ## Shape of the rendered hex string -/

theorem hexString_ne_nil (v : Nat) : (hexString v).data ≠ [] := by
  unfold hexString
  by_cases h0 : v = 0
  · rw [if_pos h0]; simp
  · rw [if_neg h0]
    simp [Nat.digits_ne_nil_iff_ne_zero.mpr h0]

theorem hexString_all_hex (v : Nat) :
    ∀ c ∈ (hexString v).data, isAsciiHexDigit c = true := by
  unfold hexString
  by_cases h0 : v = 0
  · rw [if_pos h0]
    intro c hc
    simp only [show ("0" : String).data = ['0'] from rfl, List.mem_singleton] at hc
    subst hc
    decide
  · rw [if_neg h0]
    intro c hc
    obtain ⟨d, _, rfl⟩ := List.mem_map.mp hc
    exact isAsciiHexDigit_hexDigitChar d

/-- A rendered hex value followed by a (possibly empty) colon-headed
suffix never starts with the two characters `0`, `x`: the rendering has
no leading zeros, and for value `0` the next character cannot be `x`. -/
theorem hexString_no_0x (v : Nat) (sfx : List Char)
    (hsfx : sfx = [] ∨ ∃ t, sfx = ':' :: t) :
    ¬ ∃ t, (hexString v).data ++ sfx = '0' :: 'x' :: t := by
  unfold hexString
  by_cases h0 : v = 0
  · rw [if_pos h0]
    rintro ⟨t, ht⟩
    have hx : sfx = 'x' :: t := by
      simpa [show ("0" : String).data = ['0'] from rfl] using ht
    rcases hsfx with rfl | ⟨t', rfl⟩
    · cases hx
    · simp at hx
  · rw [if_neg h0]
    rintro ⟨t, ht⟩
    have hne : Nat.digits 16 v ≠ [] := Nat.digits_ne_nil_iff_ne_zero.mpr h0
    rcases hrev : (Nat.digits 16 v).reverse with _ | ⟨d, ds⟩
    · exact hne (by simpa using congrArg List.reverse hrev)
    · have hd0 : d ≠ 0 := by
        have h1 : (Nat.digits 16 v).getLast? = some d := by
          rw [← List.head?_reverse, hrev]; rfl
        have h2 : (Nat.digits 16 v).getLast? =
            some ((Nat.digits 16 v).getLast hne) := List.getLast?_eq_getLast _ hne
        rw [h1] at h2
        rw [Option.some.inj h2]
        exact Nat.getLast_digit_ne_zero 16 h0
      have hdlt : d < 16 := by
        have hmem : d ∈ (Nat.digits 16 v).reverse := by
          rw [hrev]; exact List.mem_cons_self d ds
        exact Nat.digits_lt_base (by norm_num) (List.mem_reverse.mp hmem)
      rw [hrev] at ht
      simp only [List.map_cons, List.cons_append, List.cons.injEq] at ht
      exact hexDigitChar_ne_zero_char hdlt hd0 ht.1

/-- Forward evaluation: `parse_raw_event` on the re-serialization of a
raw event parses the whole string back to the same event. -/
theorem parseRawEventP_eval (v : Nat) (hv : v < 2 ^ 64)
    (mods : List PmuEventModifier) (hlen : mods.length ≤ 16) :
    parseRawEventP ('r' :: (hexString v).data ++ (serializeModSuffix mods).data) 0 =
      .ok true (.RawEvent ⟨v, mods⟩) []
        (1 + (hexString v).data.length + (serializeModSuffix mods).data.length) := by
  have hsfx : (serializeModSuffix mods).data = [] ∨
      ∃ t, (serializeModSuffix mods).data = ':' :: t := by
    by_cases h : mods = []
    · left; rw [h]; rfl
    · right; exact ⟨mods.map modChar, serializeModSuffix_ne_nil h⟩
  have h1 : tokenP 'r'
      ('r' :: ((hexString v).data ++ (serializeModSuffix mods).data)) 0 =
      .ok true 'r' ((hexString v).data ++ (serializeModSuffix mods).data) 1 := by
    simp [tokenP]
  have h2 := opt0x_none (hexString_no_0x v _ hsfx) 1
  have h3 : many1SatisfyP isAsciiHexDigit
      ((hexString v).data ++ (serializeModSuffix mods).data) 1 =
      .ok true (String.mk (hexString v).data) (serializeModSuffix mods).data
        (1 + (hexString v).data.length) := by
    apply many1Satisfy_exact (hexString_ne_nil v) (hexString_all_hex v)
    intro c hc
    rcases hsfx with hnil | ⟨t, ht⟩
    · rw [hnil] at hc; cases hc
    · rw [ht] at hc
      obtain rfl := Option.some.inj hc
      decide
  have h4 := optionalModifiers_suffix mods hlen
  have hfs : fromStrRadix16 (String.mk (hexString v).data) = some v := by
    rw [show String.mk (hexString v).data = hexString v from rfl]
    exact fromStrRadix16_hexString hv
  by_cases hnil : mods = []
  · subst hnil
    simp [parseRawEventP, recognizeSkipMany1SatisfyP, mapPanic, seqP,
      h1, h2, h3, h4, hfs, Nat.add_assoc]
  · simp [parseRawEventP, recognizeSkipMany1SatisfyP, mapPanic, seqP,
      h1, h2, h3, h4, hfs, hnil, Nat.add_assoc]

/-! ## Inversion of `parse_event` and the event-form parsers -/

theorem parseEventP_ok_inv {l : List Char} {pos : Nat} {b : Bool} {e : PmuEvent}
    {r : List Char} {pp : Nat} (h : parseEventP l pos = .ok b e r pp) :
    parseRawEventP l pos = .ok b e r pp ∨
      parseTracepointEventP l pos = .ok b e r pp ∨
      parseSymbolicEventP l pos = .ok b e r pp := by
  unfold parseEventP at h
  rcases orElseP_ok_inv h with h1 | ⟨e₁, _, h2⟩
  · exact Or.inl (attemptP_ok_inv h1)
  · rcases orElseP_ok_inv h2 with h3 | ⟨e₂, _, h4⟩
    · exact Or.inr (Or.inl (attemptP_ok_inv h3))
    · exact Or.inr (Or.inr (attemptP_ok_inv h4))

theorem parseRawEventP_ok_inv {l : List Char} {pos : Nat} {b : Bool} {e : PmuEvent}
    {r : List Char} {pp : Nat} (h : parseRawEventP l pos = .ok b e r pp) :
    ∃ v mods, e = .RawEvent ⟨v, mods⟩ ∧ v < 2 ^ 64 ∧ mods.length ≤ 16 := by
  unfold parseRawEventP at h
  obtain ⟨x, hseq, hf⟩ := mapPanic_ok_inv h
  obtain ⟨b₁, r₁, p₁, b₂, _, hopt, _⟩ := seqP_ok_inv hseq
  cases hval : fromStrRadix16 x.1.2 with
  | none => rw [hval] at hf; simp only [Option.map_none'] at hf; cases hf
  | some v =>
    rw [hval] at hf
    simp only [Option.map_some'] at hf
    have he : e = .RawEvent ⟨v, x.2.getD []⟩ := (Option.some.inj hf).symm
    refine ⟨v, x.2.getD [], he, fromStrRadix16_lt hval, ?_⟩
    rcases optionalP_ok_inv hopt with ⟨hnone, _⟩ | ⟨ms, hsome, hmods⟩
    · rw [hnone]; simp
    · rw [hsome]
      obtain ⟨_, _, _, hub, _⟩ := modifiersP_ok_inv hmods
      simpa using hub

/-- A successful symbolic-event parse consumed exactly the event's
re-serialization: `parse_symbolic_event` requires end-of-input, so the
serialized name plus modifier suffix is the whole input. -/
theorem parseSymbolicEventP_ok_serialize {l : List Char} {pos : Nat} {b : Bool}
    {e : PmuEvent} {r : List Char} {pp : Nat}
    (h : parseSymbolicEventP l pos = .ok b e r pp) :
    (serializePmuEvent e).data = l ∧ b = true ∧ r = [] ∧ pp = pos + l.length := by
  unfold parseSymbolicEventP at h
  obtain ⟨x, hseq, hval⟩ := mapP_ok_inv h
  obtain ⟨b₁, r₁, p₁, b₂, hinner, heof, hb⟩ := seqP_ok_inv hseq
  obtain ⟨b₃, r₃, p₃, b₄, hname, hopt, hb₁⟩ := seqP_ok_inv hinner
  obtain ⟨hb₃, happ, _, _, _, hp₃⟩ := parseNameP_ok_inv hname
  obtain ⟨hr₁nil, hrnil, hb₂, hppeq⟩ := eofP_ok_inv heof
  subst hval
  rcases optionalP_ok_inv hopt with ⟨hnone, hb₄, hreq, hpeq, _⟩ | ⟨ms, hsome, hmods⟩
  · have hr₃ : r₃ = [] := by rw [← hreq]; exact hr₁nil
    refine ⟨?_, ?_, hrnil, ?_⟩
    · show (x.1.1 ++ serializeModSuffix (x.1.2.getD [])).data = l
      rw [hnone]
      simp only [Option.getD_none]
      rw [String.data_append, serializeModSuffix_nil, List.append_nil]
      rw [← happ, hr₃, List.append_nil]
    · rw [hb, hb₁, hb₃, hb₂, hb₄]; rfl
    · rw [hppeq, hpeq, hp₃, ← happ, hr₃, List.append_nil]
  · obtain ⟨hb₄, hr₃shape, hmn, _, hp₁⟩ := modifiersP_ok_inv hmods
    have hmsne : ms ≠ [] := by intro hh; rw [hh] at hmn; simp at hmn
    refine ⟨?_, ?_, hrnil, ?_⟩
    · show (x.1.1 ++ serializeModSuffix (x.1.2.getD [])).data = l
      rw [hsome]
      simp only [Option.getD_some]
      rw [String.data_append, serializeModSuffix_ne_nil hmsne]
      rw [← happ, hr₃shape, hr₁nil]
      simp
    · rw [hb, hb₁, hb₃, hb₄]; rfl
    · rw [hppeq, hp₁, hp₃, ← happ, hr₃shape, hr₁nil]
      simp only [List.length_append, List.length_cons, List.length_map,
        List.append_nil]
      omega

/-- A successful tracepoint-event parse consumed exactly the event's
re-serialization `category:name` plus modifier suffix. -/
theorem parseTracepointEventP_ok_serialize {l : List Char} {pos : Nat} {b : Bool}
    {e : PmuEvent} {r : List Char} {pp : Nat}
    (h : parseTracepointEventP l pos = .ok b e r pp) :
    (serializePmuEvent e).data = l ∧ b = true ∧ r = [] ∧ pp = pos + l.length := by
  unfold parseTracepointEventP at h
  obtain ⟨x, hseq, hval⟩ := mapP_ok_inv h
  obtain ⟨b₁, r₁, p₁, b₂, hinner4, heof, hb⟩ := seqP_ok_inv hseq
  obtain ⟨b₃, r₃, p₃, b₄, hinner3, hopt, hb₁⟩ := seqP_ok_inv hinner4
  obtain ⟨b₅, r₅, p₅, b₆, hinner2, hname2, hb₃⟩ := seqP_ok_inv hinner3
  obtain ⟨b₇, r₇, p₇, b₈, hname1, hcolon, hb₅⟩ := seqP_ok_inv hinner2
  obtain ⟨hb₇, happ1, _, _, _, hp₇⟩ := parseNameP_ok_inv hname1
  obtain ⟨hb₈, _, hr₇, hp₅'⟩ := tokenP_ok_inv hcolon
  obtain ⟨hb₆, happ2, _, _, _, hp₃'⟩ := parseNameP_ok_inv hname2
  obtain ⟨hr₁nil, hrnil, hb₂, hppeq⟩ := eofP_ok_inv heof
  subst hval
  rcases optionalP_ok_inv hopt with ⟨hnone, hb₄, hreq, hpeq, _⟩ | ⟨ms, hsome, hmods⟩
  · have hr₃ : r₃ = [] := by rw [← hreq]; exact hr₁nil
    refine ⟨?_, ?_, hrnil, ?_⟩
    · show (x.1.1.1.1 ++ ":" ++ x.1.1.2 ++
        serializeModSuffix (x.1.2.getD [])).data = l
      rw [hnone]
      simp only [Option.getD_none]
      simp only [String.data_append, serializeModSuffix_nil, List.append_nil]
      rw [← happ1, hr₇, ← happ2, hr₃, List.append_nil]
      simp
    · rw [hb, hb₁, hb₃, hb₅, hb₇, hb₂, hb₄]; rfl
    · rw [hppeq, hpeq, hp₃', hp₅', hp₇, ← happ1, hr₇, ← happ2, hr₃, List.append_nil]
      simp only [List.length_append, List.length_cons]
      omega
  · obtain ⟨hb₄, hr₃shape, hmn, _, hp₁⟩ := modifiersP_ok_inv hmods
    have hmsne : ms ≠ [] := by intro hh; rw [hh] at hmn; simp at hmn
    refine ⟨?_, ?_, hrnil, ?_⟩
    · show (x.1.1.1.1 ++ ":" ++ x.1.1.2 ++
        serializeModSuffix (x.1.2.getD [])).data = l
      rw [hsome]
      simp only [Option.getD_some]
      simp only [String.data_append, serializeModSuffix_ne_nil hmsne]
      rw [← happ1, hr₇, ← happ2, hr₃shape, hr₁nil]
      simp
    · rw [hb, hb₁, hb₃, hb₅, hb₇, hb₄]; rfl
    · rw [hppeq, hp₁, hp₃', hp₅', hp₇, ← happ1, hr₇, ← happ2, hr₃shape, hr₁nil]
      simp only [List.length_append, List.length_cons, List.length_map,
        List.append_nil]
      omega

/-! ## C7: round-trip -/

/-- C7: every event successfully produced by `parse_event`
re-serializes (name, or `category:name`, or `r` plus the hex value,
followed by a colon-joined modifier suffix when nonempty) to a string
that `parse_event` parses back to the structurally equal event,
consuming the entire serialization, with modifier order preserved. -/
theorem c7_roundtrip (s : String) (b : Bool) (e : PmuEvent) (rest : List Char)
    (pp : Nat) (h : runP parseEventP s = .ok b e rest pp) :
    runP parseEventP (serializePmuEvent e) =
      .ok true e [] (serializePmuEvent e).data.length := by
  unfold runP at h ⊢
  rcases parseEventP_ok_inv h with hraw | htp | hsym
  · obtain ⟨v, mods, rfl, hv, hlen⟩ := parseRawEventP_ok_inv hraw
    have hser : (serializePmuEvent (.RawEvent ⟨v, mods⟩)).data =
        'r' :: (hexString v).data ++ (serializeModSuffix mods).data := by
      show ("r" ++ hexString v ++ serializeModSuffix mods).data = _
      simp [String.data_append]
    have hfwd : parseEventP
        ('r' :: (hexString v).data ++ (serializeModSuffix mods).data) 0 =
        .ok true (.RawEvent ⟨v, mods⟩) []
          (1 + (hexString v).data.length + (serializeModSuffix mods).data.length) := by
      unfold parseEventP
      exact orElseP_ok_first _ (attemptP_ok_fwd (parseRawEventP_eval v hv mods hlen))
    rw [hser, hfwd]
    simp only [POut.ok.injEq, List.length_cons, List.length_append]
    refine ⟨trivial, trivial, trivial, by omega⟩
  · obtain ⟨hser, hb, hrest, hpp⟩ := parseTracepointEventP_ok_serialize htp
    rw [hser, h, hb, hrest, hpp]
    simp
  · obtain ⟨hser, hb, hrest, hpp⟩ := parseSymbolicEventP_ok_serialize hsym
    rw [hser, h, hb, hrest, hpp]
    simp

/-- C7 witness: instantiated on the parse of `cpu-cycles:P`, whose
re-serialization parses back to the same symbolic event. -/
theorem c7_witness :
    runP parseEventP (serializePmuEvent
      (.SymbolicEvent ⟨"cpu-cycles", [.UseMaxPreciseLevel]⟩)) =
      .ok true (.SymbolicEvent ⟨"cpu-cycles", [.UseMaxPreciseLevel]⟩) []
        (serializePmuEvent
          (.SymbolicEvent ⟨"cpu-cycles", [.UseMaxPreciseLevel]⟩)).data.length :=
  c7_roundtrip "cpu-cycles:P" true
    (.SymbolicEvent ⟨"cpu-cycles", [.UseMaxPreciseLevel]⟩) [] 12 rfl
